import Mathlib

/-!
Shallow embedding of `patcher.py` — a unified-diff parsing and hunk-application
engine.  Python lists of lines become `List String`, machine integers become
`Nat`/`Int` (the hunk-body counters are `Int` because the Python loop can
decrement them below zero), and the filesystem is an explicit state record in
which read/write operations may fail (modelling `OSError` raised by
`Path.read_text` / `Path.write_text`); an exception that the Python code does
not catch is an `Except.error` result.
-/

/-- `HunkLine` from patcher.py: one line of a hunk body.
`op` is the marker character as a string: `" "` (context), `"+"` (add),
`"-"` (remove), exactly as the Python code stores it. -/
structure HunkLine where
  op : String
  text : String
deriving DecidableEq, Repr

/-- `Hunk` from patcher.py. -/
structure Hunk where
  old_start : Nat
  old_count : Nat
  new_start : Nat
  new_count : Nat
  lines : List HunkLine
deriving DecidableEq, Repr

/-- `FilePatch` from patcher.py. -/
structure FilePatch where
  old_path : String
  new_path : String
  hunks : List Hunk
deriving DecidableEq, Repr

/-! ### Character-level string helpers

The Python code manipulates `str` values by slicing and prefix tests, which
act on code points; we model them on `String.data : List Char` so that every
operation is structurally recursive and kernel-computable. -/

/-- Python `s.startswith(pre)` (on code points). -/
def strStartsWith (s pre : String) : Bool :=
  pre.data.isPrefixOf s.data

/-- Python `s[n:]` for `n ≥ 0`. -/
def strDrop (s : String) (n : Nat) : String :=
  String.mk (s.data.drop n)

/-- Python `s.endswith(suf)`. -/
def strEndsWith (s suf : String) : Bool :=
  suf.data.isSuffixOf s.data

/-- Python `s.strip()`: remove leading and trailing whitespace. -/
def pyStrip (s : String) : String :=
  String.mk (((s.data.dropWhile Char.isWhitespace).reverse.dropWhile Char.isWhitespace).reverse)

/-- Python `s.split("\t")[0]`: everything before the first tab. -/
def beforeTab (s : String) : String :=
  String.mk (s.data.takeWhile (fun c => c ≠ '\t'))

/-- Python `s.splitlines()` restricted to `"\n"` separators (the only
terminator produced or consumed by this code base). A trailing terminator
does not yield a trailing empty line, and `"".splitlines() = []`. -/
def splitLinesAux : List Char → List Char → List String
  | [], acc => [String.mk acc.reverse]
  | '\n' :: rest, acc =>
    String.mk acc.reverse ::
      (match rest with
       | [] => []
       | _ :: _ => splitLinesAux rest [])
  | c :: rest, acc => splitLinesAux rest (c :: acc)

def splitLines (s : String) : List String :=
  match s.data with
  | [] => []
  | l => splitLinesAux l []

/-- Python `"\n".join(lines)`. -/
def joinNL : List String → String
  | [] => ""
  | [x] => x
  | x :: rest => x ++ "\n" ++ joinNL rest

/-- `_strip_path_prefix` from patcher.py: remove the `a/` or `b/` diff
path marker, and map `/dev/null` to the empty path. -/
def strip_path_pfx (p : String) : String :=
  if strStartsWith p "a/" || strStartsWith p "b/" then strDrop p 2
  else if p = "/dev/null" then ""
  else p

/-! ### Applying a single hunk (`_apply_hunk`) -/

/-- The `for op, text in hunk.lines` loop of `_apply_hunk`, carrying the
`result` accumulator and the source cursor `src_idx`.  A context line is
copied from the source (never compared against the recorded text), a remove
line advances the cursor, an add line emits its text; the source returns
`None` when the cursor is at or past the end of the buffer while a context
or remove line is pending.  Any other op string is skipped (the Python
`if/elif` chain has no else branch). -/
def applyHunkLoop (file_lines : List String) :
    List HunkLine → List String → Nat → Option (List String × Nat)
  | [], result, src_idx => some (result, src_idx)
  | l :: rest, result, src_idx =>
    if l.op = " " then
      if file_lines.length ≤ src_idx then none
      else applyHunkLoop file_lines rest (result ++ [file_lines.getD src_idx ""]) (src_idx + 1)
    else if l.op = "-" then
      if file_lines.length ≤ src_idx then none
      else applyHunkLoop file_lines rest result (src_idx + 1)
    else if l.op = "+" then
      applyHunkLoop file_lines rest (result ++ [l.text]) src_idx
    else
      applyHunkLoop file_lines rest result src_idx

/-- `_apply_hunk` from patcher.py: copy everything before the hunk, walk the
hunk lines, then copy everything from the final cursor on.  (`hunk.old_start`
is 1-indexed; the parser and the spec's data model guarantee
`old_start ≥ 1`, so the `- 1` is ordinary subtraction.) -/
def _apply_hunk (file_lines : List String) (hunk : Hunk) : Option (List String) :=
  let hunk_start := hunk.old_start - 1
  match applyHunkLoop file_lines hunk.lines (file_lines.take hunk_start) hunk_start with
  | none => none
  | some (result, src_idx) => some (result ++ file_lines.drop src_idx)

/-! ### Parsing (`parse_diff`)

The Python parser is a single `while` loop over the split lines with two
nested loops (hunk-header scanning inside a file block, and hunk-body
consumption).  We model it as one structurally recursive machine over the
line list whose state records which of the three loops is active.  The
Python `continue`/`break` paths that re-examine the current line without
consuming it are inlined in the corresponding arm. -/

/-- One run of digits, Python `int` of the matched group. -/
def readDigits : List Char → Nat → Nat × List Char
  | c :: rest, acc => if c.isDigit then readDigits rest (acc * 10 + (c.toNat - 48)) else (acc, c :: rest)
  | [], acc => (acc, [])

/-- `\d+`: at least one digit. -/
def parseNat? (l : List Char) : Option (Nat × List Char) :=
  match l with
  | c :: _ => if c.isDigit then some (readDigits l 0) else none
  | [] => none

/-- Match a literal character sequence. -/
def chompLit : List Char → List Char → Option (List Char)
  | [], l => some l
  | p :: ps, c :: cs => if p = c then chompLit ps cs else none
  | _ :: _, [] => none

/-- `(?:,(\d+))?` with the Python default `or 1`: an optional `,<digits>`
group; when absent (including a comma not followed by a digit) nothing is
consumed and the count defaults to 1. -/
def parseOptCount (l : List Char) : Nat × List Char :=
  match l with
  | ',' :: rest =>
    (match parseNat? rest with
     | some (v, rest2) => (v, rest2)
     | none => (1, l))
  | _ => (1, l)

/-- `re.match(r"^@@ -(\d+)(?:,(\d+))? \+(\d+)(?:,(\d+))? @@", line)` with the
`int(... or 1)` defaulting from parse_diff.  The regex is anchored at the
start only, so trailing text after the closing `@@` is allowed.  All token
boundaries are disjoint character classes, so this greedy matcher is
equivalent to the backtracking regex. -/
def matchHunkHeader (line : String) : Option (Nat × Nat × Nat × Nat) := do
  let r1 ← chompLit "@@ -".data line.data
  let (os, r2) ← parseNat? r1
  let (oc, r3) := parseOptCount r2
  let r4 ← chompLit " +".data r3
  let (ns, r5) ← parseNat? r4
  let (nc, r6) := parseOptCount r5
  let _ ← chompLit " @@".data r6
  some (os, oc, ns, nc)

/-- The hunk-body `while` loop of parse_diff (lines 88-104): consume
operation lines while `old_remaining > 0 or new_remaining > 0`, stopping at
end of input or at an unrecognized line (which stays unconsumed).  Returns
the recorded hunk lines, the final counters, and the unconsumed rest. -/
def parseHunkBodyAux : List String → Int → Int → List HunkLine →
    (List HunkLine × Int × Int × List String)
  | lines, old_rem, new_rem, acc =>
    if old_rem > 0 ∨ new_rem > 0 then
      match lines with
      | [] => (acc, old_rem, new_rem, [])
      | line :: rest =>
        if strStartsWith line "-" then
          parseHunkBodyAux rest (old_rem - 1) new_rem (acc ++ [⟨"-", strDrop line 1⟩])
        else if strStartsWith line "+" then
          parseHunkBodyAux rest old_rem (new_rem - 1) (acc ++ [⟨"+", strDrop line 1⟩])
        else if strStartsWith line " " || line = "" then
          parseHunkBodyAux rest (old_rem - 1) (new_rem - 1)
            (acc ++ [⟨" ", if line = "" then "" else strDrop line 1⟩])
        else if strStartsWith line "\\" then
          parseHunkBodyAux rest old_rem new_rem acc
        else (acc, old_rem, new_rem, line :: rest)
    else (acc, old_rem, new_rem, lines)

/-- Which loop of parse_diff is currently running.  `sawOld` records that the
previous line was a `---` line (holding its stripped path text), pending the
`+++` check on the current line; this removes any need for lookahead so the
machine consumes exactly one line per step. -/
inductive PState where
  /-- the outer scan for a `---` line -/
  | scanning : PState
  /-- the previous line was `---` with this `[4:].strip()` text -/
  | sawOld (old_raw : String) : PState
  /-- inside a file block, scanning for hunk headers -/
  | inFile (old_path new_path : String) (hunks : List Hunk) : PState
  /-- inside a hunk body -/
  | inHunk (old_path new_path : String) (hunks : List Hunk)
      (old_start old_count new_start new_count : Nat)
      (old_rem new_rem : Int) (hl : List HunkLine) : PState
deriving DecidableEq, Repr

/-- What parse_diff returns when its `while` loop runs off the end of the
input in each state: a pending file block (with a pending hunk, if any) is
appended; a bare `---` with no following line yields nothing. -/
def finalizeState (st : PState) (patches : List FilePatch) : List FilePatch :=
  match st with
  | .scanning => patches
  | .sawOld _ => patches
  | .inFile o n hs => patches ++ [⟨o, n, hs⟩]
  | .inHunk o n hs os oc ns nc _ _ hl => patches ++ [⟨o, n, hs ++ [⟨os, oc, ns, nc, hl⟩]⟩]

/-- The whole `while i < len(lines)` machine of parse_diff.  Each arm mirrors
the corresponding Python loop; where Python re-examines the current line
after leaving an inner loop (`continue`, or the hunk-body `break`), the
outer loop's code is inlined on the same line, so every step consumes
exactly one line and the recursion is structural. -/
def parseLoop : List String → PState → List FilePatch → List FilePatch
  | [], st, patches => finalizeState st patches
  | line :: rest, st, patches =>
    match st with
    | .scanning =>
      if strStartsWith line "---" then
        parseLoop rest (.sawOld (pyStrip (strDrop line 4))) patches
      else parseLoop rest .scanning patches
    | .sawOld old_raw =>
      if strStartsWith line "+++" then
        parseLoop rest
          (.inFile (strip_path_pfx (beforeTab old_raw))
                   (strip_path_pfx (beforeTab (pyStrip (strDrop line 4)))) []) patches
      else
        -- Python `continue`s and re-examines this line in the outer scan
        if strStartsWith line "---" then
          parseLoop rest (.sawOld (pyStrip (strDrop line 4))) patches
        else parseLoop rest .scanning patches
    | .inFile o n hs =>
      if strStartsWith line "---" then
        -- leave the inner loop, append the patch, and re-run the outer scan
        -- on this same `---` line
        parseLoop rest (.sawOld (pyStrip (strDrop line 4))) (patches ++ [⟨o, n, hs⟩])
      else
        match matchHunkHeader line with
        | some (os, oc, ns, nc) =>
          parseLoop rest (.inHunk o n hs os oc ns nc (oc : Int) (nc : Int) []) patches
        | none => parseLoop rest (.inFile o n hs) patches
    | .inHunk o n hs os oc ns nc orem nrem hl =>
      if (orem > 0 ∨ nrem > 0) ∧
          (strStartsWith line "-" || strStartsWith line "+" ||
           (strStartsWith line " " || line = "") || strStartsWith line "\\") = true then
        -- an operation line consumed by the hunk-body loop
        if strStartsWith line "-" then
          parseLoop rest (.inHunk o n hs os oc ns nc (orem - 1) nrem (hl ++ [⟨"-", strDrop line 1⟩])) patches
        else if strStartsWith line "+" then
          parseLoop rest (.inHunk o n hs os oc ns nc orem (nrem - 1) (hl ++ [⟨"+", strDrop line 1⟩])) patches
        else if strStartsWith line " " || line = "" then
          parseLoop rest (.inHunk o n hs os oc ns nc (orem - 1) (nrem - 1)
            (hl ++ [⟨" ", if line = "" then "" else strDrop line 1⟩])) patches
        else
          parseLoop rest (.inHunk o n hs os oc ns nc orem nrem hl) patches
      else
        -- the body loop stops (counters exhausted, or it breaks on an
        -- unrecognized line): the hunk is recorded and the hunk-header scan
        -- re-examines this same line
        if strStartsWith line "---" then
          parseLoop rest (.sawOld (pyStrip (strDrop line 4)))
            (patches ++ [⟨o, n, hs ++ [⟨os, oc, ns, nc, hl⟩]⟩])
        else
          match matchHunkHeader line with
          | some (os2, oc2, ns2, nc2) =>
            parseLoop rest (.inHunk o n (hs ++ [⟨os, oc, ns, nc, hl⟩]) os2 oc2 ns2 nc2 (oc2 : Int) (nc2 : Int) []) patches
          | none => parseLoop rest (.inFile o n (hs ++ [⟨os, oc, ns, nc, hl⟩])) patches

/-- `parse_diff` from patcher.py. -/
def parse_diff (diff_text : String) : List FilePatch :=
  parseLoop (splitLines diff_text) .scanning []

/-! ### The filesystem and applying patches (`apply_patch`,
`apply_diff_to_codebase`)

The engine works under a fixed root directory, so files are keyed by their
relative path.  `readFails`/`writeFails` model the environment's I/O errors
(`OSError` on permission/disk problems): reading or writing such a path
raises.  `apply_patch` returns in `Except String` — `.error` is an exception
that the Python function does not catch and therefore propagates to its
caller. -/

deriving instance DecidableEq for Except

structure FS where
  files : List (String × String)
  readFails : List String
  writeFails : List String
deriving DecidableEq, Repr

def updateAssoc : List (String × String) → String → String → List (String × String)
  | [], k, v => [(k, v)]
  | (k2, v2) :: rest, k, v =>
    if k2 = k then (k, v) :: rest else (k2, v2) :: updateAssoc rest k v

/-- `Path.exists()`. -/
def fsExists (fs : FS) (p : String) : Bool :=
  (fs.files.lookup p).isSome

/-- `Path.read_text(...)`; raises on a path whose read fails. -/
def fsRead (fs : FS) (p : String) : Except String String :=
  if fs.readFails.contains p then .error ("read error: " ++ p)
  else
    match fs.files.lookup p with
    | some c => .ok c
    | none => .error ("read error: " ++ p)

/-- `mkdir(parents=True)` followed by `Path.write_text(...)`; raises on a
path whose write fails. -/
def fsWrite (fs : FS) (p : String) (content : String) : Except String FS :=
  if fs.writeFails.contains p then .error ("write error: " ++ p)
  else .ok { fs with files := updateAssoc fs.files p content }

/-- `rel = patch.new_path or patch.old_path` (Python string truthiness). -/
def patchRel (patch : FilePatch) : String :=
  if patch.new_path = "" then patch.old_path else patch.new_path

/-- The new-file-creation content loop of apply_patch (lines 166-170):
every `+` or `" "` line's text followed by one `"\n"`, across all hunks in
order. -/
def createContent (hunks : List Hunk) : String :=
  hunks.foldl
    (fun content h =>
      h.lines.foldl
        (fun content l => if l.op = "+" ∨ l.op = " " then content ++ l.text ++ "\n" else content)
        content)
    ""

/-- The `for hunk in reversed(patch.hunks)` loop of apply_patch, already fed
with the reversed hunk list.  On a mismatch it stops with the failing hunk's
`old_start` (used in the failure message). -/
def applyHunksLoop : List Hunk → List String → Except Nat (List String)
  | [], file_lines => .ok file_lines
  | h :: rest, file_lines =>
    match _apply_hunk file_lines h with
    | none => .error h.old_start
    | some file_lines2 => applyHunksLoop rest file_lines2

/-- `apply_patch` from patcher.py.  The returned `.ok` carries the updated
filesystem and the Python `(success, message)` pair; `.error` is an uncaught
exception.  Note that the creation branch and the read are inside
`try/except`, but the final `write_text` (line 202) is not: a write failure
in the modification branch escapes as `.error`. -/
def apply_patch (patch : FilePatch) (fs : FS) : Except String (FS × Bool × String) :=
  let rel := patchRel patch
  if rel = "" then
    .ok (fs, false, "Could not determine file path from diff.")
  else if patch.old_path = "" then
    -- new file creation (--- /dev/null); `try` catches mkdir/write errors
    match fsWrite fs rel (createContent patch.hunks) with
    | .error e => .ok (fs, false, "Failed to create " ++ rel ++ ": " ++ e)
    | .ok fs2 => .ok (fs2, true, "Created new file: " ++ rel)
  else
    match
      (if fsExists fs rel then some rel
       else if fsExists fs patch.old_path then some patch.old_path
       else none) with
    | none => .ok (fs, false, "File not found: " ++ rel)
    | some rel2 =>
      -- `try` catches read errors
      match fsRead fs rel2 with
      | .error e => .ok (fs, false, "Cannot read " ++ rel2 ++ ": " ++ e)
      | .ok original =>
        let file_lines := splitLines original
        match applyHunksLoop patch.hunks.reverse file_lines with
        | .error n =>
          .ok (fs, false, "Hunk mismatch in " ++ rel2 ++ " at line " ++ Nat.repr n ++ ". Patch may be stale.")
        | .ok patched_lines =>
          let patched_content := joinNL patched_lines
          let patched_content :=
            if strEndsWith patched_content "\n" then patched_content else patched_content ++ "\n"
          -- this write is NOT inside a try/except in the source
          match fsWrite fs rel2 patched_content with
          | .error e => .error e
          | .ok fs2 => .ok (fs2, true, "Patched: " ++ rel2)

/-- The `for patch in patches` loop of apply_diff_to_codebase.  The
post-success DB sync (`db.update_file_content`) is external storage, wrapped
in `try/except: pass` in the source, and does not touch the filesystem: it
is a no-op here. -/
def applyPatchesLoop : List FilePatch → FS → List (Bool × String) →
    Except String (FS × List (Bool × String))
  | [], fs, results => .ok (fs, results)
  | p :: rest, fs, results =>
    match apply_patch p fs with
    | .error e => .error e
    | .ok (fs2, ok, msg) => applyPatchesLoop rest fs2 (results ++ [(ok, msg)])

/-- `apply_diff_to_codebase` from patcher.py (the spec's `applyAll`). -/
def apply_diff_to_codebase (diff_text : String) (fs : FS) :
    Except String (FS × List (Bool × String)) :=
  let patches := parse_diff diff_text
  if patches = [] then .ok (fs, [(false, "No valid patches found in diff.")])
  else applyPatchesLoop patches fs []

/-! ### Specification-level views of `_apply_hunk`

`applyOpsFull ops src` is the hunk-line walk expressed as a recursion over
the hunk lines acting on the source suffix that starts at the hunk position
(the untouched tail is carried along); `opsOut` is its output when the hunk
fits.  They are related to the imperative loop by `applyHunkLoop_eq` below
and are only proof devices — `_apply_hunk` itself stays the source-faithful
definition. -/

def applyOpsFull : List HunkLine → List String → Option (List String)
  | [], src => some src
  | l :: rest, src =>
    if l.op = " " then
      match src with
      | [] => none
      | x :: src2 => (applyOpsFull rest src2).map (fun r => x :: r)
    else if l.op = "-" then
      match src with
      | [] => none
      | _ :: src2 => applyOpsFull rest src2
    else if l.op = "+" then
      (applyOpsFull rest src).map (fun r => l.text :: r)
    else applyOpsFull rest src

/-- The transformed hunk region alone (without the untouched tail). -/
def opsOut : List HunkLine → List String → List String
  | [], _ => []
  | l :: rest, src =>
    if l.op = " " then
      match src with
      | [] => opsOut rest []
      | x :: src2 => x :: opsOut rest src2
    else if l.op = "-" then opsOut rest src.tail
    else if l.op = "+" then l.text :: opsOut rest src
    else opsOut rest src

/-- Number of source lines a hunk body consumes (context + remove lines). -/
def oldExtent : List HunkLine → Nat
  | [] => 0
  | l :: rest => (if l.op = " " ∨ l.op = "-" then 1 else 0) + oldExtent rest

/-- Number of output lines a hunk body emits (context + add lines). -/
def newExtent : List HunkLine → Nat
  | [] => 0
  | l :: rest => (if l.op = " " ∨ l.op = "+" then 1 else 0) + newExtent rest

/-! ### Reference definitions for the multi-hunk refinement claim -/

/-- Hunks listed in ascending `old_start` order, editing pairwise disjoint
line ranges that all lie inside a buffer of `n` lines; `c` is the exclusive
lower bound (in 1-indexed old-file lines) below which no hunk may start,
initially 0. -/
def hunksFit (n : Nat) : Nat → List Hunk → Bool
  | _, [] => true
  | c, h :: rest =>
    decide (c + 1 ≤ h.old_start) && decide (h.old_start - 1 + oldExtent h.lines ≤ n) &&
    hunksFit n (h.old_start - 1 + oldExtent h.lines) rest

/-- The simultaneous splice of a list of disjoint, ascending hunks into a
buffer; `c` is the number of old-file lines already consumed (the buffer
argument is the remaining suffix).  Both the reverse-order application and
the forward simulation are proved equal to this denotation. -/
def spliceRelAux : List String → Nat → List Hunk → List String
  | buf, _, [] => buf
  | buf, c, h :: rest =>
    buf.take (h.old_start - 1 - c) ++
      opsOut h.lines (buf.drop (h.old_start - 1 - c)) ++
      spliceRelAux (buf.drop (h.old_start - 1 - c + oldExtent h.lines))
        (c + (h.old_start - 1 - c + oldExtent h.lines)) rest

/-- Modelled from the spec: "a reference forward simulation that applies the
hunks in ascending order while tracking the line-number offset introduced by
each earlier hunk".  Each hunk is applied at its recorded `old_start`
shifted by the accumulated offset (the change in buffer length caused by the
earlier hunks). -/
def forwardSim : List Hunk → Int → List String → Option (List String)
  | [], _, buf => some buf
  | h :: rest, offset, buf =>
    match _apply_hunk buf { h with old_start := ((h.old_start : Int) + offset).toNat } with
    | none => none
    | some buf2 => forwardSim rest (offset + ((buf2.length : Int) - (buf.length : Int))) buf2

/-! ### Further claim-level definitions -/

/-- The cursor-overrun condition: walking the hunk lines from 0-indexed
position `idx` over a buffer of `n` lines, some context or remove entry is
processed while the cursor is at or past the end. -/
def cursorFail (n : Nat) : Nat → List HunkLine → Bool
  | _, [] => false
  | idx, l :: rest =>
    if l.op = " " ∨ l.op = "-" then (decide (n ≤ idx)) || cursorFail n (idx + 1) rest
    else cursorFail n idx rest

/-- Two hunk-line lists with identical op sequences and identical texts on
add lines (context/remove texts free to differ). -/
def linesTextEquiv : List HunkLine → List HunkLine → Bool
  | [], [] => true
  | a :: as2, b :: bs2 =>
    (a.op = b.op : Bool) && ((a.op = "+" : Bool) → (a.text = b.text : Bool) : Bool) && linesTextEquiv as2 bs2
  | _, _ => false

/-- The texts of all add/context lines across the hunks, in order (the lines
whose text `createContent` emits). -/
def emittedTexts (hunks : List Hunk) : List String :=
  (hunks.map Hunk.lines).flatten.foldr
    (fun l acc => if l.op = "+" ∨ l.op = " " then l.text :: acc else acc) []

/-! ### Branch lemmas for the op dispatch -/

theorem applyOpsFull_sp_nil (l : HunkLine) (rest : List HunkLine) (h : l.op = " ") :
    applyOpsFull (l :: rest) [] = none := by simp [applyOpsFull, h]

theorem applyOpsFull_sp_cons (l : HunkLine) (rest : List HunkLine) (x : String)
    (src : List String) (h : l.op = " ") :
    applyOpsFull (l :: rest) (x :: src) = (applyOpsFull rest src).map (fun r => x :: r) := by
  simp [applyOpsFull, h]

theorem applyOpsFull_rm_nil (l : HunkLine) (rest : List HunkLine) (h : l.op = "-") :
    applyOpsFull (l :: rest) [] = none := by simp [applyOpsFull, h]

theorem applyOpsFull_rm_cons (l : HunkLine) (rest : List HunkLine) (x : String)
    (src : List String) (h : l.op = "-") :
    applyOpsFull (l :: rest) (x :: src) = applyOpsFull rest src := by
  simp [applyOpsFull, h]

theorem applyOpsFull_add (l : HunkLine) (rest : List HunkLine) (src : List String)
    (h : l.op = "+") :
    applyOpsFull (l :: rest) src = (applyOpsFull rest src).map (fun r => l.text :: r) := by
  cases src <;> simp [applyOpsFull, h]

theorem applyOpsFull_other (l : HunkLine) (rest : List HunkLine) (src : List String)
    (h1 : ¬ l.op = " ") (h2 : ¬ l.op = "-") (h3 : ¬ l.op = "+") :
    applyOpsFull (l :: rest) src = applyOpsFull rest src := by
  cases src <;> simp [applyOpsFull, h1, h2, h3]

theorem opsOut_sp_nil (l : HunkLine) (rest : List HunkLine) (h : l.op = " ") :
    opsOut (l :: rest) [] = opsOut rest [] := by simp [opsOut, h]

theorem opsOut_sp_cons (l : HunkLine) (rest : List HunkLine) (x : String)
    (src : List String) (h : l.op = " ") :
    opsOut (l :: rest) (x :: src) = x :: opsOut rest src := by simp [opsOut, h]

theorem opsOut_rm (l : HunkLine) (rest : List HunkLine) (src : List String) (h : l.op = "-") :
    opsOut (l :: rest) src = opsOut rest src.tail := by
  cases src <;> simp [opsOut, h]

theorem opsOut_add (l : HunkLine) (rest : List HunkLine) (src : List String) (h : l.op = "+") :
    opsOut (l :: rest) src = l.text :: opsOut rest src := by
  cases src <;> simp [opsOut, h]

theorem opsOut_other (l : HunkLine) (rest : List HunkLine) (src : List String)
    (h1 : ¬ l.op = " ") (h2 : ¬ l.op = "-") (h3 : ¬ l.op = "+") :
    opsOut (l :: rest) src = opsOut rest src := by
  cases src <;> simp [opsOut, h1, h2, h3]

theorem oldExtent_cons_sp (l : HunkLine) (rest : List HunkLine) (h : l.op = " " ∨ l.op = "-") :
    oldExtent (l :: rest) = 1 + oldExtent rest := by simp [oldExtent, h]

theorem oldExtent_cons_ns (l : HunkLine) (rest : List HunkLine)
    (h1 : ¬ l.op = " ") (h2 : ¬ l.op = "-") :
    oldExtent (l :: rest) = oldExtent rest := by simp [oldExtent, h1, h2]

theorem newExtent_cons_sp (l : HunkLine) (rest : List HunkLine) (h : l.op = " " ∨ l.op = "+") :
    newExtent (l :: rest) = 1 + newExtent rest := by simp [newExtent, h]

theorem newExtent_cons_ns (l : HunkLine) (rest : List HunkLine)
    (h1 : ¬ l.op = " ") (h2 : ¬ l.op = "+") :
    newExtent (l :: rest) = newExtent rest := by simp [newExtent, h1, h2]

/-! ### `_apply_hunk` as a recursion over the hunk lines -/

theorem applyHunkLoop_eq (buf : List String) (ops : List HunkLine) :
    ∀ (acc : List String) (j : Nat),
    (applyHunkLoop buf ops acc j).map (fun ri => ri.1 ++ buf.drop ri.2) =
    (applyOpsFull ops (buf.drop j)).map (fun t => acc ++ t) := by
  induction ops with
  | nil => intro acc j; simp [applyHunkLoop, applyOpsFull]
  | cons l rest ih =>
    intro acc j
    by_cases hsp : l.op = " "
    · rw [applyHunkLoop, if_pos hsp]
      by_cases hj : buf.length ≤ j
      · rw [if_pos hj, List.drop_eq_nil_of_le hj, applyOpsFull_sp_nil _ _ hsp]
        simp
      · rw [if_neg hj]
        have hj2 : j < buf.length := Nat.not_le.mp hj
        rw [List.drop_eq_getElem_cons hj2, applyOpsFull_sp_cons _ _ _ _ hsp, ih]
        have hD : buf.getD j "" = buf[j] := by
          simp [List.getD_eq_getElem?_getD, List.getElem?_eq_getElem hj2]
        rw [hD]
        cases applyOpsFull rest (buf.drop (j + 1)) <;> simp
    · by_cases hm : l.op = "-"
      · rw [applyHunkLoop, if_neg hsp, if_pos hm]
        by_cases hj : buf.length ≤ j
        · rw [if_pos hj, List.drop_eq_nil_of_le hj, applyOpsFull_rm_nil _ _ hm]
          simp
        · rw [if_neg hj]
          have hj2 : j < buf.length := Nat.not_le.mp hj
          rw [List.drop_eq_getElem_cons hj2, applyOpsFull_rm_cons _ _ _ _ hm, ih]
      · by_cases hp : l.op = "+"
        · rw [applyHunkLoop, if_neg hsp, if_neg hm, if_pos hp,
            applyOpsFull_add _ _ _ hp, ih]
          cases applyOpsFull rest (buf.drop j) <;> simp
        · rw [applyHunkLoop, if_neg hsp, if_neg hm, if_neg hp,
            applyOpsFull_other _ _ _ hsp hm hp, ih]

theorem apply_hunk_eq (buf : List String) (h : Hunk) :
    _apply_hunk buf h =
      (applyOpsFull h.lines (buf.drop (h.old_start - 1))).map
        (fun t => buf.take (h.old_start - 1) ++ t) := by
  have hb := applyHunkLoop_eq buf h.lines (buf.take (h.old_start - 1)) (h.old_start - 1)
  rw [_apply_hunk]
  cases hl : applyHunkLoop buf h.lines (buf.take (h.old_start - 1)) (h.old_start - 1) with
  | none => rw [hl] at hb; simp at hb; simp [← hb]
  | some ri => rw [hl] at hb; simp at hb; simp [← hb]

/-! ### Basic lemmas about `applyOpsFull` / `opsOut` -/

theorem applyOpsFull_append (ops : List HunkLine) :
    ∀ (src ys : List String), oldExtent ops ≤ src.length →
    applyOpsFull ops (src ++ ys) = (applyOpsFull ops src).map (fun r => r ++ ys) := by
  induction ops with
  | nil => intro src ys _; simp [applyOpsFull]
  | cons l rest ih =>
    intro src ys hle
    by_cases hsp : l.op = " "
    · rw [oldExtent_cons_sp _ _ (Or.inl hsp)] at hle
      cases src with
      | nil => simp at hle
      | cons x src2 =>
        simp only [List.length_cons] at hle
        rw [List.cons_append, applyOpsFull_sp_cons _ _ _ _ hsp,
          applyOpsFull_sp_cons _ _ _ _ hsp, ih src2 ys (by omega)]
        cases applyOpsFull rest src2 <;> simp
    · by_cases hm : l.op = "-"
      · rw [oldExtent_cons_sp _ _ (Or.inr hm)] at hle
        cases src with
        | nil => simp at hle
        | cons x src2 =>
          simp only [List.length_cons] at hle
          rw [List.cons_append, applyOpsFull_rm_cons _ _ _ _ hm,
            applyOpsFull_rm_cons _ _ _ _ hm]
          exact ih src2 ys (by omega)
      · by_cases hp : l.op = "+"
        · rw [oldExtent_cons_ns _ _ hsp hm] at hle
          rw [applyOpsFull_add _ _ _ hp, applyOpsFull_add _ _ _ hp, ih src ys hle]
          cases applyOpsFull rest src <;> simp
        · rw [oldExtent_cons_ns _ _ hsp hm] at hle
          rw [applyOpsFull_other _ _ _ hsp hm hp, applyOpsFull_other _ _ _ hsp hm hp]
          exact ih src ys hle

theorem applyOpsFull_eq_opsOut (ops : List HunkLine) :
    ∀ (src : List String), oldExtent ops ≤ src.length →
    applyOpsFull ops src = some (opsOut ops src ++ src.drop (oldExtent ops)) := by
  induction ops with
  | nil => intro src _; simp [applyOpsFull, opsOut, oldExtent]
  | cons l rest ih =>
    intro src hle
    by_cases hsp : l.op = " "
    · rw [oldExtent_cons_sp _ _ (Or.inl hsp)] at hle
      cases src with
      | nil => simp at hle
      | cons x src2 =>
        simp only [List.length_cons] at hle
        rw [applyOpsFull_sp_cons _ _ _ _ hsp, opsOut_sp_cons _ _ _ _ hsp,
          ih src2 (by omega), oldExtent_cons_sp _ _ (Or.inl hsp)]
        have : 1 + oldExtent rest = oldExtent rest + 1 := by omega
        rw [this]
        simp
    · by_cases hm : l.op = "-"
      · rw [oldExtent_cons_sp _ _ (Or.inr hm)] at hle
        cases src with
        | nil => simp at hle
        | cons x src2 =>
          simp only [List.length_cons] at hle
          rw [applyOpsFull_rm_cons _ _ _ _ hm, opsOut_rm _ _ _ hm,
            ih src2 (by omega), oldExtent_cons_sp _ _ (Or.inr hm)]
          have : 1 + oldExtent rest = oldExtent rest + 1 := by omega
          rw [this]
          simp
      · by_cases hp : l.op = "+"
        · rw [oldExtent_cons_ns _ _ hsp hm] at hle
          rw [applyOpsFull_add _ _ _ hp, opsOut_add _ _ _ hp, ih src hle,
            oldExtent_cons_ns _ _ hsp hm]
          simp
        · rw [oldExtent_cons_ns _ _ hsp hm] at hle
          rw [applyOpsFull_other _ _ _ hsp hm hp, opsOut_other _ _ _ hsp hm hp,
            ih src hle, oldExtent_cons_ns _ _ hsp hm]

theorem opsOut_append (ops : List HunkLine) :
    ∀ (src ys : List String), oldExtent ops ≤ src.length →
    opsOut ops (src ++ ys) = opsOut ops src := by
  induction ops with
  | nil => intro src ys _; simp [opsOut]
  | cons l rest ih =>
    intro src ys hle
    by_cases hsp : l.op = " "
    · rw [oldExtent_cons_sp _ _ (Or.inl hsp)] at hle
      cases src with
      | nil => simp at hle
      | cons x src2 =>
        simp only [List.length_cons] at hle
        rw [List.cons_append, opsOut_sp_cons _ _ _ _ hsp, opsOut_sp_cons _ _ _ _ hsp,
          ih src2 ys (by omega)]
    · by_cases hm : l.op = "-"
      · rw [oldExtent_cons_sp _ _ (Or.inr hm)] at hle
        cases src with
        | nil => simp at hle
        | cons x src2 =>
          simp only [List.length_cons] at hle
          rw [opsOut_rm _ _ _ hm, opsOut_rm _ _ _ hm]
          simpa using ih src2 ys (by omega)
      · by_cases hp : l.op = "+"
        · rw [oldExtent_cons_ns _ _ hsp hm] at hle
          rw [opsOut_add _ _ _ hp, opsOut_add _ _ _ hp, ih src ys hle]
        · rw [oldExtent_cons_ns _ _ hsp hm] at hle
          rw [opsOut_other _ _ _ hsp hm hp, opsOut_other _ _ _ hsp hm hp, ih src ys hle]

theorem opsOut_length (ops : List HunkLine) :
    ∀ (src : List String), oldExtent ops ≤ src.length →
    (opsOut ops src).length = newExtent ops := by
  induction ops with
  | nil => intro src _; simp [opsOut, newExtent]
  | cons l rest ih =>
    intro src hle
    by_cases hsp : l.op = " "
    · rw [oldExtent_cons_sp _ _ (Or.inl hsp)] at hle
      cases src with
      | nil => simp at hle
      | cons x src2 =>
        simp only [List.length_cons] at hle
        rw [opsOut_sp_cons _ _ _ _ hsp, newExtent_cons_sp _ _ (Or.inl hsp)]
        simp [ih src2 (by omega)]
        omega
    · by_cases hm : l.op = "-"
      · rw [oldExtent_cons_sp _ _ (Or.inr hm)] at hle
        cases src with
        | nil => simp at hle
        | cons x src2 =>
          simp only [List.length_cons] at hle
          rw [opsOut_rm _ _ _ hm, newExtent_cons_ns _ _ hsp (by simp [hm])]
          simpa using ih src2 (by omega)
      · by_cases hp : l.op = "+"
        · rw [oldExtent_cons_ns _ _ hsp hm] at hle
          rw [opsOut_add _ _ _ hp, newExtent_cons_sp _ _ (Or.inr hp)]
          simp [ih src hle]
          omega
        · rw [oldExtent_cons_ns _ _ hsp hm] at hle
          rw [opsOut_other _ _ _ hsp hm hp, newExtent_cons_ns _ _ hsp hp, ih src hle]

theorem applyOpsFull_length (ops : List HunkLine) :
    ∀ (src r : List String), applyOpsFull ops src = some r →
    r.length + oldExtent ops = src.length + newExtent ops := by
  induction ops with
  | nil =>
    intro src r hr
    rw [applyOpsFull] at hr
    cases hr
    simp [oldExtent, newExtent]
  | cons l rest ih =>
    intro src r hr
    by_cases hsp : l.op = " "
    · cases src with
      | nil => rw [applyOpsFull_sp_nil _ _ hsp] at hr; cases hr
      | cons x src2 =>
        rw [applyOpsFull_sp_cons _ _ _ _ hsp] at hr
        cases hr2 : applyOpsFull rest src2 with
        | none => rw [hr2] at hr; cases hr
        | some r2 =>
          rw [hr2] at hr
          cases hr
          have := ih src2 r2 hr2
          rw [oldExtent_cons_sp _ _ (Or.inl hsp), newExtent_cons_sp _ _ (Or.inl hsp)]
          simp only [List.length_cons]
          omega
    · by_cases hm : l.op = "-"
      · cases src with
        | nil => rw [applyOpsFull_rm_nil _ _ hm] at hr; cases hr
        | cons x src2 =>
          rw [applyOpsFull_rm_cons _ _ _ _ hm] at hr
          have := ih src2 r hr
          rw [oldExtent_cons_sp _ _ (Or.inr hm), newExtent_cons_ns _ _ hsp (by simp [hm])]
          simp only [List.length_cons]
          omega
      · by_cases hp : l.op = "+"
        · rw [applyOpsFull_add _ _ _ hp] at hr
          cases hr2 : applyOpsFull rest src with
          | none => rw [hr2] at hr; cases hr
          | some r2 =>
            rw [hr2] at hr
            cases hr
            have := ih src r2 hr2
            rw [oldExtent_cons_ns _ _ hsp hm, newExtent_cons_sp _ _ (Or.inr hp)]
            simp only [List.length_cons]
            omega
        · rw [applyOpsFull_other _ _ _ hsp hm hp] at hr
          have := ih src r hr
          rw [oldExtent_cons_ns _ _ hsp hm, newExtent_cons_ns _ _ hsp hp]
          omega

/-! ### Hunk-level locality lemmas -/

/-- A hunk shifted past an untouched prefix acts on the suffix alone. -/
theorem apply_hunk_pfx (X Y : List String) (h : Hunk) (h1 : 1 ≤ h.old_start) :
    _apply_hunk (X ++ Y) { h with old_start := h.old_start + X.length } =
      (_apply_hunk Y h).map (fun r => X ++ r) := by
  rw [apply_hunk_eq, apply_hunk_eq]
  dsimp only
  have e1 : h.old_start + X.length - 1 = X.length + (h.old_start - 1) := by omega
  rw [e1]
  rw [List.take_append_eq_append_take, List.drop_append_eq_append_drop]
  rw [List.take_of_length_le (by omega), List.drop_eq_nil_of_le (by omega)]
  have e2 : X.length + (h.old_start - 1) - X.length = h.old_start - 1 := by omega
  rw [e2, List.nil_append]
  cases applyOpsFull h.lines (Y.drop (h.old_start - 1)) <;> simp

/-- A hunk that fits inside a prefix leaves any suffix untouched. -/
theorem apply_hunk_sfx (X Z : List String) (h : Hunk)
    (hfit : h.old_start - 1 + oldExtent h.lines ≤ X.length) :
    _apply_hunk (X ++ Z) h = (_apply_hunk X h).map (fun r => r ++ Z) := by
  rw [apply_hunk_eq, apply_hunk_eq]
  rw [List.take_append_eq_append_take, List.drop_append_eq_append_drop]
  have e1 : h.old_start - 1 - X.length = 0 := by omega
  rw [e1, List.take_zero, List.drop_zero, List.append_nil]
  rw [applyOpsFull_append _ _ _ (by simp; omega)]
  cases applyOpsFull h.lines (X.drop (h.old_start - 1)) <;> simp

/-- A fitting hunk is a pure splice: the prefix, the transformed region, and
the suffix after its extent. -/
theorem apply_hunk_fit (buf : List String) (h : Hunk)
    (hfit : h.old_start - 1 + oldExtent h.lines ≤ buf.length) :
    _apply_hunk buf h =
      some (buf.take (h.old_start - 1) ++ opsOut h.lines (buf.drop (h.old_start - 1)) ++
        buf.drop (h.old_start - 1 + oldExtent h.lines)) := by
  rw [apply_hunk_eq]
  rw [applyOpsFull_eq_opsOut _ _ (by simp; omega)]
  rw [List.drop_drop]
  simp

/-! ### The reverse-order application loop -/

theorem applyHunksLoop_append (xs ys : List Hunk) :
    ∀ buf, applyHunksLoop (xs ++ ys) buf =
      (applyHunksLoop xs buf).bind (fun b => applyHunksLoop ys b) := by
  induction xs with
  | nil => intro buf; simp [applyHunksLoop, Except.bind]
  | cons h rest ih =>
    intro buf
    rw [List.cons_append, applyHunksLoop, applyHunksLoop]
    cases _apply_hunk buf h with
    | none => simp [Except.bind]
    | some b2 => simp only; rw [ih]

/-- Reverse-order application of ascending, disjoint, fitting hunks equals
the simultaneous splice. -/
theorem applyHunksLoop_rev_splice (hunks : List Hunk) :
    ∀ (X Y : List String) (c : Nat), X.length = c →
    hunksFit (c + Y.length) c hunks = true →
    applyHunksLoop hunks.reverse (X ++ Y) = .ok (X ++ spliceRelAux Y c hunks) := by
  induction hunks with
  | nil =>
    intro X Y c _ _
    simp [applyHunksLoop, spliceRelAux]
  | cons h rest ih =>
    intro X Y c hX hfit
    rw [hunksFit] at hfit
    simp only [Bool.and_eq_true, decide_eq_true_eq] at hfit
    obtain ⟨⟨hc1, hc2⟩, h3⟩ := hfit
    have hsE : h.old_start - 1 - c + oldExtent h.lines ≤ Y.length := by omega
    have hW : (Y.take (h.old_start - 1 - c + oldExtent h.lines)).length
        = h.old_start - 1 - c + oldExtent h.lines := by
      simp
      omega
    have hX2 : (X ++ Y.take (h.old_start - 1 - c + oldExtent h.lines)).length
        = h.old_start - 1 + oldExtent h.lines := by
      simp only [List.length_append, hX, hW]
      omega
    have hfit2 : hunksFit
        ((h.old_start - 1 + oldExtent h.lines) +
          (Y.drop (h.old_start - 1 - c + oldExtent h.lines)).length)
        (h.old_start - 1 + oldExtent h.lines) rest = true := by
      have e : (h.old_start - 1 + oldExtent h.lines) +
          (Y.drop (h.old_start - 1 - c + oldExtent h.lines)).length = c + Y.length := by
        simp only [List.length_drop]
        omega
      rw [e]
      exact h3
    have hIH := ih (X ++ Y.take (h.old_start - 1 - c + oldExtent h.lines))
      (Y.drop (h.old_start - 1 - c + oldExtent h.lines))
      (h.old_start - 1 + oldExtent h.lines) hX2 hfit2
    rw [List.append_assoc, List.take_append_drop] at hIH
    rw [List.reverse_cons, applyHunksLoop_append, hIH]
    simp only [Except.bind]
    rw [applyHunksLoop]
    rw [apply_hunk_sfx _ _ _ (le_of_eq hX2.symm)]
    rw [apply_hunk_fit _ _ (le_of_eq hX2.symm)]
    simp only [Option.map_some']
    rw [applyHunksLoop]
    -- now rewrite the spliced pieces of the prefix X ++ take (s0r + E) Y
    rw [List.take_append_eq_append_take, List.drop_append_eq_append_drop]
    rw [List.take_of_length_le (by omega), List.drop_eq_nil_of_le (by omega), List.nil_append]
    have e4 : h.old_start - 1 - X.length = h.old_start - 1 - c := by omega
    rw [e4]
    rw [List.take_take, List.drop_take]
    have e5 : min (h.old_start - 1 - c) (h.old_start - 1 - c + oldExtent h.lines)
        = h.old_start - 1 - c := by omega
    have e6 : h.old_start - 1 - c + oldExtent h.lines - (h.old_start - 1 - c)
        = oldExtent h.lines := by omega
    rw [e5, e6]
    have e7 : opsOut h.lines (List.take (oldExtent h.lines) (Y.drop (h.old_start - 1 - c)))
        = opsOut h.lines (Y.drop (h.old_start - 1 - c)) := by
      conv_rhs => rw [← List.take_append_drop (oldExtent h.lines) (Y.drop (h.old_start - 1 - c))]
      rw [opsOut_append]
      simp
      omega
    rw [e7]
    have e8 : List.drop (h.old_start - 1 + oldExtent h.lines)
        (X ++ Y.take (h.old_start - 1 - c + oldExtent h.lines)) = [] := by
      apply List.drop_eq_nil_of_le
      rw [hX2]
    rw [e8, List.append_nil]
    rw [spliceRelAux]
    have e9 : c + (h.old_start - 1 - c + oldExtent h.lines)
        = h.old_start - 1 + oldExtent h.lines := by omega
    rw [e9]
    simp [List.append_assoc]

/-- Forward simulation of ascending, disjoint, fitting hunks equals the
simultaneous splice: the offset tracks exactly the length change caused by
the already-applied hunks. -/
theorem forwardSim_splice (hunks : List Hunk) :
    ∀ (X Y : List String) (c : Nat),
    hunksFit (c + Y.length) c hunks = true →
    forwardSim hunks ((X.length : Int) - (c : Int)) (X ++ Y) =
      some (X ++ spliceRelAux Y c hunks) := by
  induction hunks with
  | nil =>
    intro X Y c _
    simp [forwardSim, spliceRelAux]
  | cons h rest ih =>
    intro X Y c hfit
    rw [hunksFit] at hfit
    simp only [Bool.and_eq_true, decide_eq_true_eq] at hfit
    obtain ⟨⟨hc1, hc2⟩, h3⟩ := hfit
    have hsE : h.old_start - 1 - c + oldExtent h.lines ≤ Y.length := by omega
    rw [forwardSim]
    have eos : ((h.old_start : Int) + ((X.length : Int) - (c : Int))).toNat
        = (h.old_start - c) + X.length := by omega
    rw [eos]
    have hpfx := apply_hunk_pfx X Y
      ⟨h.old_start - c, h.old_count, h.new_start, h.new_count, h.lines⟩ (by dsimp; omega)
    dsimp only at hpfx ⊢
    rw [hpfx]
    have hfith : _apply_hunk Y ⟨h.old_start - c, h.old_count, h.new_start, h.new_count, h.lines⟩
        = some (Y.take (h.old_start - 1 - c) ++
            opsOut h.lines (Y.drop (h.old_start - 1 - c)) ++
            Y.drop (h.old_start - 1 - c + oldExtent h.lines)) := by
      rw [apply_hunk_fit _ _ (by dsimp; omega)]
      dsimp only
      have e : h.old_start - c - 1 = h.old_start - 1 - c := by omega
      rw [e]
    rw [hfith]
    simp only [Option.map_some']
    have hN : (opsOut h.lines (Y.drop (h.old_start - 1 - c))).length = newExtent h.lines := by
      apply opsOut_length
      simp
      omega
    have hfit2 : hunksFit
        ((h.old_start - 1 + oldExtent h.lines) +
          (Y.drop (h.old_start - 1 - c + oldExtent h.lines)).length)
        (h.old_start - 1 + oldExtent h.lines) rest = true := by
      have e : (h.old_start - 1 + oldExtent h.lines) +
          (Y.drop (h.old_start - 1 - c + oldExtent h.lines)).length = c + Y.length := by
        simp only [List.length_drop]
        omega
      rw [e]
      exact h3
    have hIH := ih (X ++ (Y.take (h.old_start - 1 - c) ++
        opsOut h.lines (Y.drop (h.old_start - 1 - c))))
      (Y.drop (h.old_start - 1 - c + oldExtent h.lines))
      (h.old_start - 1 + oldExtent h.lines) hfit2
    have eδ : ((X ++ (Y.take (h.old_start - 1 - c) ++
        opsOut h.lines (Y.drop (h.old_start - 1 - c)))).length : Int) -
          ((h.old_start - 1 + oldExtent h.lines : Nat) : Int)
        = (X.length : Int) - (c : Int) +
          (((X ++ (Y.take (h.old_start - 1 - c) ++
              opsOut h.lines (Y.drop (h.old_start - 1 - c)) ++
              Y.drop (h.old_start - 1 - c + oldExtent h.lines))).length : Int) -
            ((X ++ Y).length : Int)) := by
      simp only [List.length_append, List.length_take, List.length_drop, hN]
      push_cast
      omega
    rw [eδ] at hIH
    rw [List.append_assoc, List.append_assoc, List.append_assoc] at hIH
    simp only [List.append_assoc]
    rw [hIH]
    rw [spliceRelAux]
    have e9 : c + (h.old_start - 1 - c + oldExtent h.lines)
        = h.old_start - 1 + oldExtent h.lines := by omega
    rw [e9]
    simp [List.append_assoc]

/-! ### Text-independence of the applier (for the hyperproperty claim) -/

theorem applyOpsFull_textEquiv (ops1 : List HunkLine) :
    ∀ (ops2 : List HunkLine), linesTextEquiv ops1 ops2 = true →
    ∀ src, applyOpsFull ops1 src = applyOpsFull ops2 src := by
  induction ops1 with
  | nil =>
    intro ops2 he src
    cases ops2 with
    | nil => rfl
    | cons b bs => simp [linesTextEquiv] at he
  | cons a as ih =>
    intro ops2 he src
    cases ops2 with
    | nil => simp [linesTextEquiv] at he
    | cons b bs =>
      rw [linesTextEquiv] at he
      simp only [Bool.and_eq_true, decide_eq_true_eq] at he
      obtain ⟨⟨hop, htext⟩, hrest⟩ := he
      by_cases hsp : a.op = " "
      · cases src with
        | nil => rw [applyOpsFull_sp_nil _ _ hsp, applyOpsFull_sp_nil _ _ (hop ▸ hsp)]
        | cons x s2 =>
          rw [applyOpsFull_sp_cons _ _ _ _ hsp, applyOpsFull_sp_cons _ _ _ _ (hop ▸ hsp),
            ih bs hrest s2]
      · by_cases hm : a.op = "-"
        · cases src with
          | nil => rw [applyOpsFull_rm_nil _ _ hm, applyOpsFull_rm_nil _ _ (hop ▸ hm)]
          | cons x s2 =>
            rw [applyOpsFull_rm_cons _ _ _ _ hm, applyOpsFull_rm_cons _ _ _ _ (hop ▸ hm),
              ih bs hrest s2]
        · by_cases hp : a.op = "+"
          · rw [applyOpsFull_add _ _ _ hp, applyOpsFull_add _ _ _ (hop ▸ hp),
              ih bs hrest src]
            have ht : a.text = b.text := by
              apply htext
              simp [hp]
            rw [ht]
          · rw [applyOpsFull_other _ _ _ hsp hm hp,
              applyOpsFull_other _ _ _ (hop ▸ hsp) (hop ▸ hm) (hop ▸ hp), ih bs hrest src]

/-! ### Mismatch characterization and add-only hunks -/

theorem applyHunkLoop_none_iff (buf : List String) (ops : List HunkLine) :
    ∀ (acc : List String) (j : Nat),
    applyHunkLoop buf ops acc j = none ↔ cursorFail buf.length j ops = true := by
  induction ops with
  | nil => intro acc j; simp [applyHunkLoop, cursorFail]
  | cons l rest ih =>
    intro acc j
    by_cases hsp : l.op = " "
    · rw [applyHunkLoop, if_pos hsp, cursorFail]
      rw [if_pos (Or.inl hsp)]
      by_cases hj : buf.length ≤ j
      · simp [hj]
      · simp only [if_neg hj, ih, Bool.or_eq_true, decide_eq_true_eq]
        constructor
        · intro hh; exact Or.inr hh
        · rintro (hh | hh)
          · omega
          · exact hh
    · by_cases hm : l.op = "-"
      · rw [applyHunkLoop, if_neg hsp, if_pos hm, cursorFail]
        rw [if_pos (Or.inr hm)]
        by_cases hj : buf.length ≤ j
        · simp [hj]
        · simp only [if_neg hj, ih, Bool.or_eq_true, decide_eq_true_eq]
          constructor
          · intro hh; exact Or.inr hh
          · rintro (hh | hh)
            · omega
            · exact hh
      · by_cases hp : l.op = "+"
        · rw [applyHunkLoop, if_neg hsp, if_neg hm, if_pos hp, cursorFail,
            if_neg (by simp [hsp, hm]), ih]
        · rw [applyHunkLoop, if_neg hsp, if_neg hm, if_neg hp, cursorFail,
            if_neg (by simp [hsp, hm]), ih]

theorem apply_hunk_none_iff (buf : List String) (h : Hunk) :
    _apply_hunk buf h = none ↔ cursorFail buf.length (h.old_start - 1) h.lines = true := by
  rw [_apply_hunk]
  rw [← applyHunkLoop_none_iff buf h.lines (buf.take (h.old_start - 1)) (h.old_start - 1)]
  cases applyHunkLoop buf h.lines (buf.take (h.old_start - 1)) (h.old_start - 1) with
  | none => simp
  | some ri => simp

theorem applyHunkLoop_addOnly (buf : List String) (ops : List HunkLine)
    (hadd : ∀ l ∈ ops, l.op = "+") :
    ∀ (acc : List String) (j : Nat),
    applyHunkLoop buf ops acc j = some (acc ++ ops.map HunkLine.text, j) := by
  induction ops with
  | nil => intro acc j; simp [applyHunkLoop]
  | cons l rest ih =>
    intro acc j
    have hl : l.op = "+" := hadd l (by simp)
    rw [applyHunkLoop, if_neg (by simp [hl]), if_neg (by simp [hl]), if_pos hl]
    rw [ih (fun x hx => hadd x (by simp [hx])) (acc ++ [l.text]) j]
    simp

/-! ### Success and output length depend only on the buffer length -/

theorem applyOpsFull_length_congr (ops : List HunkLine) :
    ∀ (s1 s2 : List String), s1.length = s2.length →
    (applyOpsFull ops s1).map List.length = (applyOpsFull ops s2).map List.length := by
  induction ops with
  | nil => intro s1 s2 hlen; simp [applyOpsFull, hlen]
  | cons l rest ih =>
    intro s1 s2 hlen
    by_cases hsp : l.op = " "
    · cases s1 with
      | nil =>
        cases s2 with
        | nil => rfl
        | cons y t2 => simp at hlen
      | cons x t1 =>
        cases s2 with
        | nil => simp at hlen
        | cons y t2 =>
          simp only [List.length_cons] at hlen
          rw [applyOpsFull_sp_cons _ _ _ _ hsp, applyOpsFull_sp_cons _ _ _ _ hsp]
          have := ih t1 t2 (by omega)
          cases o1 : applyOpsFull rest t1 with
          | none =>
            rw [o1] at this
            cases o2 : applyOpsFull rest t2 with
            | none => simp
            | some r2 => rw [o2] at this; simp at this
          | some r1 =>
            rw [o1] at this
            cases o2 : applyOpsFull rest t2 with
            | none => rw [o2] at this; simp at this
            | some r2 =>
              rw [o2] at this
              simp at this
              simp [this]
    · by_cases hm : l.op = "-"
      · cases s1 with
        | nil =>
          cases s2 with
          | nil => rfl
          | cons y t2 => simp at hlen
        | cons x t1 =>
          cases s2 with
          | nil => simp at hlen
          | cons y t2 =>
            simp only [List.length_cons] at hlen
            rw [applyOpsFull_rm_cons _ _ _ _ hm, applyOpsFull_rm_cons _ _ _ _ hm]
            exact ih t1 t2 (by omega)
      · by_cases hp : l.op = "+"
        · rw [applyOpsFull_add _ _ _ hp, applyOpsFull_add _ _ _ hp]
          have := ih s1 s2 hlen
          cases o1 : applyOpsFull rest s1 with
          | none =>
            rw [o1] at this
            cases o2 : applyOpsFull rest s2 with
            | none => simp
            | some r2 => rw [o2] at this; simp at this
          | some r1 =>
            rw [o1] at this
            cases o2 : applyOpsFull rest s2 with
            | none => rw [o2] at this; simp at this
            | some r2 =>
              rw [o2] at this
              simp at this
              simp [this]
        · rw [applyOpsFull_other _ _ _ hsp hm hp, applyOpsFull_other _ _ _ hsp hm hp]
          exact ih s1 s2 hlen

theorem apply_hunk_length_congr (b1 b2 : List String) (h : Hunk)
    (hlen : b1.length = b2.length) :
    (_apply_hunk b1 h).map List.length = (_apply_hunk b2 h).map List.length := by
  rw [apply_hunk_eq, apply_hunk_eq]
  have hc := applyOpsFull_length_congr h.lines (b1.drop (h.old_start - 1))
    (b2.drop (h.old_start - 1)) (by simp [hlen])
  cases o1 : applyOpsFull h.lines (b1.drop (h.old_start - 1)) with
  | none =>
    rw [o1] at hc
    cases o2 : applyOpsFull h.lines (b2.drop (h.old_start - 1)) with
    | none => simp
    | some r2 => rw [o2] at hc; simp at hc
  | some r1 =>
    rw [o1] at hc
    cases o2 : applyOpsFull h.lines (b2.drop (h.old_start - 1)) with
    | none => rw [o2] at hc; simp at hc
    | some r2 =>
      rw [o2] at hc
      simp at hc
      simp [hc, hlen]

theorem applyHunksLoop_length_congr (hs : List Hunk) :
    ∀ (b1 b2 : List String), b1.length = b2.length →
    (applyHunksLoop hs b1).map List.length = (applyHunksLoop hs b2).map List.length := by
  induction hs with
  | nil => intro b1 b2 hlen; simp [applyHunksLoop, Except.map, hlen]
  | cons h rest ih =>
    intro b1 b2 hlen
    rw [applyHunksLoop, applyHunksLoop]
    have hc := apply_hunk_length_congr b1 b2 h hlen
    cases o1 : _apply_hunk b1 h with
    | none =>
      rw [o1] at hc
      cases o2 : _apply_hunk b2 h with
      | none => simp [Except.map]
      | some r2 => rw [o2] at hc; simp at hc
    | some r1 =>
      rw [o1] at hc
      cases o2 : _apply_hunk b2 h with
      | none => rw [o2] at hc; simp at hc
      | some r2 =>
        rw [o2] at hc
        simp at hc
        exact ih r1 r2 hc

theorem apply_hunk_length_eq (buf r : List String) (h : Hunk)
    (hbal : newExtent h.lines = oldExtent h.lines)
    (hap : _apply_hunk buf h = some r) : r.length = buf.length := by
  rw [apply_hunk_eq] at hap
  cases o1 : applyOpsFull h.lines (buf.drop (h.old_start - 1)) with
  | none => rw [o1] at hap; simp at hap
  | some t =>
    rw [o1] at hap
    simp at hap
    have := applyOpsFull_length h.lines (buf.drop (h.old_start - 1)) t o1
    rw [hbal] at this
    simp at this
    rw [← hap]
    simp
    omega

theorem applyHunksLoop_length_preserved (hs : List Hunk) :
    ∀ (buf r : List String), (∀ h ∈ hs, newExtent h.lines = oldExtent h.lines) →
    applyHunksLoop hs buf = .ok r → r.length = buf.length := by
  induction hs with
  | nil =>
    intro buf r _ hr
    rw [applyHunksLoop] at hr
    cases hr
    rfl
  | cons h rest ih =>
    intro buf r hbal hr
    rw [applyHunksLoop] at hr
    cases o1 : _apply_hunk buf h with
    | none => rw [o1] at hr; cases hr
    | some b2 =>
      rw [o1] at hr
      have h1 := apply_hunk_length_eq buf b2 h (hbal h (by simp)) o1
      have h2 := ih b2 r (fun x hx => hbal x (by simp [hx])) hr
      omega

/-! ### Creation content as a flat concatenation -/

/-- The concatenation of the given texts, each followed by one `"\n"`. -/
def concatNL : List String → String
  | [] => ""
  | t :: ts => t ++ "\n" ++ concatNL ts

theorem emittedTexts_cons (h : Hunk) (hs : List Hunk) :
    emittedTexts (h :: hs) =
      h.lines.foldr (fun l acc => if l.op = "+" ∨ l.op = " " then l.text :: acc else acc)
        (emittedTexts hs) := by
  rw [emittedTexts, emittedTexts]
  simp [List.foldr_append]

theorem createContent_line_foldl (ls : List HunkLine) :
    ∀ (s : String),
    ls.foldl (fun content l => if l.op = "+" ∨ l.op = " " then content ++ l.text ++ "\n" else content) s
      = s ++ concatNL (ls.foldr (fun l acc => if l.op = "+" ∨ l.op = " " then l.text :: acc else acc) []) := by
  induction ls with
  | nil => intro s; simp [concatNL]
  | cons l rest ih =>
    intro s
    rw [List.foldl_cons, List.foldr_cons]
    by_cases hop : l.op = "+" ∨ l.op = " "
    · rw [if_pos hop, if_pos hop, ih, concatNL, ← String.append_assoc, ← String.append_assoc]
    · rw [if_neg hop, if_neg hop, ih]

theorem concatNL_append (xs ys : List String) :
    concatNL (xs ++ ys) = concatNL xs ++ concatNL ys := by
  induction xs with
  | nil => simp [concatNL]
  | cons x rest ih =>
    rw [List.cons_append, concatNL, concatNL, ih]
    simp [String.append_assoc]

theorem createContent_eq_concatNL (hunks : List Hunk) :
    createContent hunks = concatNL (emittedTexts hunks) := by
  suffices hgen : ∀ (s : String),
      hunks.foldl
        (fun content h =>
          h.lines.foldl
            (fun content l => if l.op = "+" ∨ l.op = " " then content ++ l.text ++ "\n" else content)
            content)
        s = s ++ concatNL (emittedTexts hunks) by
    rw [createContent, hgen ""]
    rw [String.empty_append]
  induction hunks with
  | nil => intro s; simp [emittedTexts, concatNL]
  | cons h rest ih =>
    intro s
    rw [List.foldl_cons, createContent_line_foldl, ih, emittedTexts_cons]
    rw [String.append_assoc]
    congr 1
    have : ∀ (base : List String),
        h.lines.foldr (fun l acc => if l.op = "+" ∨ l.op = " " then l.text :: acc else acc) base
          = h.lines.foldr (fun l acc => if l.op = "+" ∨ l.op = " " then l.text :: acc else acc) [] ++ base := by
      intro base
      induction h.lines with
      | nil => simp
      | cons l ls ihl =>
        rw [List.foldr_cons, List.foldr_cons, ihl]
        by_cases hop : l.op = "+" ∨ l.op = " "
        · rw [if_pos hop, if_pos hop, List.cons_append]
        · rw [if_neg hop, if_neg hop]
    rw [this (emittedTexts rest), concatNL_append]

theorem concatNL_endsWith (ts : List String) (hne : ts ≠ []) :
    strEndsWith (concatNL ts) "\n" = true := by
  induction ts with
  | nil => exact absurd rfl hne
  | cons t rest ih =>
    cases rest with
    | nil =>
      rw [concatNL, concatNL, String.append_empty, strEndsWith]
      simp [List.isSuffixOf, String.data_append]
    | cons t2 rest2 =>
      rw [concatNL]
      have ih2 := ih (by simp)
      rw [strEndsWith] at ih2 ⊢
      simp only [String.data_append]
      simp only [List.isSuffixOf] at ih2 ⊢
      simp only [List.reverse_append]
      rw [List.isPrefixOf_iff_prefix] at ih2 ⊢
      exact ih2.trans (List.prefix_append _ _)

/-! ### Parser counter invariant -/

theorem oldExtent_append (a b : List HunkLine) :
    oldExtent (a ++ b) = oldExtent a + oldExtent b := by
  induction a with
  | nil => simp [oldExtent]
  | cons l rest ih => rw [List.cons_append, oldExtent, oldExtent, ih]; omega

theorem newExtent_append (a b : List HunkLine) :
    newExtent (a ++ b) = newExtent a + newExtent b := by
  induction a with
  | nil => simp [newExtent]
  | cons l rest ih => rw [List.cons_append, newExtent, newExtent, ih]; omega

/-- The hunk-body loop invariant: each recorded context/remove line
decremented the old counter once, each recorded context/add line the new
counter once. -/
theorem parseHunkBodyAux_counts (lines : List String) :
    ∀ (orem nrem : Int) (acc hl : List HunkLine) (o2 n2 : Int) (rest : List String),
    parseHunkBodyAux lines orem nrem acc = (hl, o2, n2, rest) →
    (oldExtent hl : Int) - (oldExtent acc : Int) = orem - o2 ∧
    (newExtent hl : Int) - (newExtent acc : Int) = nrem - n2 := by
  induction lines with
  | nil =>
    intro orem nrem acc hl o2 n2 rest hp
    rw [parseHunkBodyAux] at hp
    split at hp <;> (cases hp; constructor <;> omega)
  | cons line rest0 ih =>
    intro orem nrem acc hl o2 n2 rest hp
    rw [parseHunkBodyAux] at hp
    split at hp
    · split at hp
      · have := ih _ _ _ _ _ _ _ hp
        rw [oldExtent_append, newExtent_append] at this
        have ho : oldExtent [(⟨"-", strDrop line 1⟩ : HunkLine)] = 1 := by simp [oldExtent]
        have hn : newExtent [(⟨"-", strDrop line 1⟩ : HunkLine)] = 0 := by simp [newExtent]
        rw [ho, hn] at this
        constructor <;> omega
      · split at hp
        · have := ih _ _ _ _ _ _ _ hp
          rw [oldExtent_append, newExtent_append] at this
          have ho : oldExtent [(⟨"+", strDrop line 1⟩ : HunkLine)] = 0 := by simp [oldExtent]
          have hn : newExtent [(⟨"+", strDrop line 1⟩ : HunkLine)] = 1 := by simp [newExtent]
          rw [ho, hn] at this
          constructor <;> omega
        · split at hp
          · have := ih _ _ _ _ _ _ _ hp
            rw [oldExtent_append, newExtent_append] at this
            have ho : oldExtent [(⟨" ", if line = "" then "" else strDrop line 1⟩ : HunkLine)]
                = 1 := by simp [oldExtent]
            have hn : newExtent [(⟨" ", if line = "" then "" else strDrop line 1⟩ : HunkLine)]
                = 1 := by simp [newExtent]
            rw [ho, hn] at this
            constructor <;> omega
          · split at hp
            · have := ih _ _ _ _ _ _ _ hp
              exact this
            · cases hp
              constructor <;> omega
    · cases hp
      constructor <;> omega

/-- The parse machine's hunk-body handling agrees with `parseHunkBodyAux`:
from an `inHunk` state, the machine records exactly the hunk lines the body
loop produces and then continues the in-file scan on the unconsumed rest. -/
theorem parseLoop_inHunk_eq (lines : List String) :
    ∀ (o n : String) (hs : List Hunk) (os oc ns nc : Nat) (orem nrem : Int)
      (hl : List HunkLine) (patches : List FilePatch),
    parseLoop lines (.inHunk o n hs os oc ns nc orem nrem hl) patches =
      parseLoop (parseHunkBodyAux lines orem nrem hl).2.2.2
        (.inFile o n (hs ++ [⟨os, oc, ns, nc, (parseHunkBodyAux lines orem nrem hl).1⟩]))
        patches := by
  induction lines with
  | nil =>
    intro o n hs os oc ns nc orem nrem hl patches
    have hb : parseHunkBodyAux [] orem nrem hl = (hl, orem, nrem, []) := by
      rw [parseHunkBodyAux]
      split <;> rfl
    rw [hb, parseLoop, parseLoop, finalizeState, finalizeState]
  | cons line rest0 ih =>
    intro o n hs os oc ns nc orem nrem hl patches
    by_cases hc : orem > 0 ∨ nrem > 0
    · by_cases h1 : strStartsWith line "-" = true
      · have hb : parseHunkBodyAux (line :: rest0) orem nrem hl =
            parseHunkBodyAux rest0 (orem - 1) nrem (hl ++ [⟨"-", strDrop line 1⟩]) := by
          rw [parseHunkBodyAux]
          rw [if_pos hc, if_pos h1]
        rw [hb, parseLoop]
        rw [if_pos ⟨hc, by simp [h1]⟩, if_pos h1]
        exact ih o n hs os oc ns nc (orem - 1) nrem (hl ++ [⟨"-", strDrop line 1⟩]) patches
      · by_cases h2 : strStartsWith line "+" = true
        · have hb : parseHunkBodyAux (line :: rest0) orem nrem hl =
              parseHunkBodyAux rest0 orem (nrem - 1) (hl ++ [⟨"+", strDrop line 1⟩]) := by
            rw [parseHunkBodyAux]
            rw [if_pos hc, if_neg h1, if_pos h2]
          rw [hb, parseLoop]
          rw [if_pos ⟨hc, by simp [h2]⟩, if_neg h1, if_pos h2]
          exact ih o n hs os oc ns nc orem (nrem - 1) (hl ++ [⟨"+", strDrop line 1⟩]) patches
        · by_cases h3 : (strStartsWith line " " || line = "") = true
          · have hb : parseHunkBodyAux (line :: rest0) orem nrem hl =
                parseHunkBodyAux rest0 (orem - 1) (nrem - 1)
                  (hl ++ [⟨" ", if line = "" then "" else strDrop line 1⟩]) := by
              rw [parseHunkBodyAux]
              rw [if_pos hc, if_neg h1, if_neg h2, if_pos h3]
            rw [hb, parseLoop]
            rw [if_pos ⟨hc, by simp only [h3]; simp⟩, if_neg h1, if_neg h2, if_pos h3]
            exact ih o n hs os oc ns nc (orem - 1) (nrem - 1)
              (hl ++ [⟨" ", if line = "" then "" else strDrop line 1⟩]) patches
          · by_cases h4 : strStartsWith line "\\" = true
            · have hb : parseHunkBodyAux (line :: rest0) orem nrem hl =
                  parseHunkBodyAux rest0 orem nrem hl := by
                rw [parseHunkBodyAux]
                rw [if_pos hc, if_neg h1, if_neg h2, if_neg h3, if_pos h4]
              rw [hb, parseLoop]
              rw [if_pos ⟨hc, by simp [h4]⟩, if_neg h1, if_neg h2, if_neg h3]
              exact ih o n hs os oc ns nc orem nrem hl patches
            · have hb : parseHunkBodyAux (line :: rest0) orem nrem hl =
                  (hl, orem, nrem, line :: rest0) := by
                rw [parseHunkBodyAux]
                rw [if_pos hc, if_neg h1, if_neg h2, if_neg h3, if_neg h4]
              rw [hb]
              conv_lhs => rw [parseLoop]
              rw [if_neg (by
                intro hcontra
                obtain ⟨-, hob⟩ := hcontra
                simp only [Bool.or_eq_true] at hob h3
                tauto)]
              conv_rhs => rw [parseLoop]
    · have hb : parseHunkBodyAux (line :: rest0) orem nrem hl =
          (hl, orem, nrem, line :: rest0) := by
        rw [parseHunkBodyAux]
        rw [if_neg hc]
      rw [hb]
      conv_lhs => rw [parseLoop]
      rw [if_neg (by intro hcontra; exact hc hcontra.1)]
      conv_rhs => rw [parseLoop]

/-! ### Claim theorems -/

/-- C1: for an on-disk file `f.txt` with content `"a\nb\nc\n"` and a diff with
the single hunk `@@ -1,3 +1,3 @@` / `" a"`, `"-b"`, `"+B"`, `" c"`, `applyAll`
(`apply_diff_to_codebase`) rewrites the file to exactly `"a\nB\nc\n"` and
returns one success entry naming the file. -/
theorem claim1_concrete_scenario :
    apply_diff_to_codebase "--- a/f.txt\n+++ b/f.txt\n@@ -1,3 +1,3 @@\n a\n-b\n+B\n c\n"
      ⟨[("f.txt", "a\nb\nc\n")], [], []⟩
      = .ok (⟨[("f.txt", "a\nB\nc\n")], [], []⟩, [(true, "Patched: f.txt")]) := by decide

/-- C2: for a FilePatch whose hunks are in ascending `old_start` order and
edit disjoint line ranges of the buffer (`hunksFit`), the reverse-order
application performed by `apply_patch` (`applyHunksLoop` over the reversed
hunk list) succeeds and produces the same buffer as the spec's forward
simulation that applies hunks in ascending order with an offset. -/
theorem claim2_reverse_equals_forward_sim (patch : FilePatch) (lines : List String)
    (hfit : hunksFit lines.length 0 patch.hunks = true) :
    ∃ res, applyHunksLoop patch.hunks.reverse lines = .ok res ∧
      forwardSim patch.hunks 0 lines = some res := by
  refine ⟨spliceRelAux lines 0 patch.hunks, ?_, ?_⟩
  · have h := applyHunksLoop_rev_splice patch.hunks [] lines 0 rfl (by simpa using hfit)
    simpa using h
  · have h := forwardSim_splice patch.hunks [] lines 0 (by simpa using hfit)
    simpa using h

/-- C2 witness: two disjoint hunks (lines 2 and 5 of a 6-line file). -/
theorem claim2_witness :
    ∃ res,
      applyHunksLoop
        ([⟨2, 1, 2, 1, [⟨"-", "b"⟩, ⟨"+", "B"⟩]⟩,
          ⟨5, 1, 5, 2, [⟨" ", "e"⟩, ⟨"+", "X"⟩]⟩] : List Hunk).reverse
        ["a", "b", "c", "d", "e", "f"] = .ok res ∧
      forwardSim
        [⟨2, 1, 2, 1, [⟨"-", "b"⟩, ⟨"+", "B"⟩]⟩,
         ⟨5, 1, 5, 2, [⟨" ", "e"⟩, ⟨"+", "X"⟩]⟩] 0
        ["a", "b", "c", "d", "e", "f"] = some res :=
  claim2_reverse_equals_forward_sim
    ⟨"f.txt", "f.txt",
      [⟨2, 1, 2, 1, [⟨"-", "b"⟩, ⟨"+", "B"⟩]⟩,
       ⟨5, 1, 5, 2, [⟨" ", "e"⟩, ⟨"+", "X"⟩]⟩]⟩
    ["a", "b", "c", "d", "e", "f"] (by decide)

/-- C3: for a modification FilePatch whose reverse-order application hits a
mismatch, `apply_patch` returns a failure entry naming the resolved file and
the failing hunk's `old_start`, and the filesystem is returned unchanged (no
write happens). -/
theorem claim3_mismatch_failure_no_write (patch : FilePatch) (fs : FS)
    (content : String) (n : Nat)
    (hold : patch.old_path ≠ "")
    (hexists : fsExists fs (patchRel patch) = true)
    (hnoread : fs.readFails.contains (patchRel patch) = false)
    (hcontent : fs.files.lookup (patchRel patch) = some content)
    (hmm : applyHunksLoop patch.hunks.reverse (splitLines content) = .error n) :
    apply_patch patch fs = .ok (fs, false,
      "Hunk mismatch in " ++ patchRel patch ++ " at line " ++ Nat.repr n ++
        ". Patch may be stale.") := by
  have hrel : patchRel patch ≠ "" := by
    rw [patchRel]
    split
    · exact hold
    · next hne => exact hne
  simp only [apply_patch, if_neg hrel, if_neg hold, hexists, if_true, fsRead,
    hnoread, Bool.false_eq_true, if_false, hcontent, hmm]

/-- C3 witness: the spec's concrete stale-patch scenario — the hunk declares
`old_start = 1, old_count = 3` but the file has only two lines. -/
theorem claim3_witness :
    apply_patch
      ⟨"f.txt", "f.txt", [⟨1, 3, 1, 3, [⟨" ", "a"⟩, ⟨" ", "b"⟩, ⟨" ", "c"⟩]⟩]⟩
      ⟨[("f.txt", "a\nb\n")], [], []⟩
      = .ok (⟨[("f.txt", "a\nb\n")], [], []⟩, false,
          "Hunk mismatch in f.txt at line 1. Patch may be stale.") :=
  claim3_mismatch_failure_no_write
    ⟨"f.txt", "f.txt", [⟨1, 3, 1, 3, [⟨" ", "a"⟩, ⟨" ", "b"⟩, ⟨" ", "c"⟩]⟩]⟩
    ⟨[("f.txt", "a\nb\n")], [], []⟩ "a\nb\n" 1
    (by decide) (by decide) (by decide) (by decide) (by decide)

/-- C4 counterexample: the claim "reapplying an identical patch to the
now-changed file must fail with a mismatch" is false.  The applier checks
only positions and counts, so the `a/b/c → a/B/c` patch applies a second
time and reports success again (a silent no-op), rather than failing. -/
theorem claim4_counterexample :
    apply_diff_to_codebase "--- a/f.txt\n+++ b/f.txt\n@@ -1,3 +1,3 @@\n a\n-b\n+B\n c\n"
      ⟨[("f.txt", "a\nb\nc\n")], [], []⟩
      = .ok (⟨[("f.txt", "a\nB\nc\n")], [], []⟩, [(true, "Patched: f.txt")]) ∧
    apply_diff_to_codebase "--- a/f.txt\n+++ b/f.txt\n@@ -1,3 +1,3 @@\n a\n-b\n+B\n c\n"
      ⟨[("f.txt", "a\nB\nc\n")], [], []⟩
      = .ok (⟨[("f.txt", "a\nB\nc\n")], [], []⟩, [(true, "Patched: f.txt")]) := by
  decide

/-- C4 amended: reapplication is not guaranteed to fail — whenever every
hunk of the patch has as many context+add lines as context+remove lines
(so the buffer length is preserved), a successful application implies the
identical reapplication also succeeds, because hunk success depends only on
positions, counts, and the buffer length. -/
theorem claim4_amended_reapply (patch : FilePatch) (buf out : List String)
    (hbal : ∀ h ∈ patch.hunks, newExtent h.lines = oldExtent h.lines)
    (hfirst : applyHunksLoop patch.hunks.reverse buf = .ok out) :
    ∃ out2, applyHunksLoop patch.hunks.reverse out = .ok out2 := by
  have hlen : out.length = buf.length :=
    applyHunksLoop_length_preserved patch.hunks.reverse buf out
      (fun h hh => hbal h (List.mem_reverse.mp hh)) hfirst
  have hc := applyHunksLoop_length_congr patch.hunks.reverse out buf hlen
  rw [hfirst] at hc
  cases ho : applyHunksLoop patch.hunks.reverse out with
  | error e => rw [ho] at hc; simp [Except.map] at hc
  | ok r => exact ⟨r, rfl⟩

/-- C4 witness: the counterexample patch reapplies successfully at the
buffer level. -/
theorem claim4_witness :
    ∃ out2, applyHunksLoop
      ([⟨1, 3, 1, 3, [⟨" ", "a"⟩, ⟨"-", "b"⟩, ⟨"+", "B"⟩, ⟨" ", "c"⟩]⟩] : List Hunk).reverse
      ["a", "B", "c"] = .ok out2 :=
  claim4_amended_reapply
    ⟨"f.txt", "f.txt", [⟨1, 3, 1, 3, [⟨" ", "a"⟩, ⟨"-", "b"⟩, ⟨"+", "B"⟩, ⟨" ", "c"⟩]⟩]⟩
    ["a", "b", "c"] ["a", "B", "c"] (by decide) (by decide)

/-- C5: the applier's behaviour depends only on positions, counts and op
kinds — two hunks equal except in the text recorded on context/remove lines
produce identical results on every buffer (same output or same mismatch). -/
theorem claim5_text_independence (buf : List String) (h1 h2 : Hunk)
    (hstart : h1.old_start = h2.old_start)
    (hcounts : h1.old_count = h2.old_count ∧ h1.new_start = h2.new_start ∧
      h1.new_count = h2.new_count)
    (hlines : linesTextEquiv h1.lines h2.lines = true) :
    _apply_hunk buf h1 = _apply_hunk buf h2 := by
  rw [apply_hunk_eq, apply_hunk_eq, hstart,
    applyOpsFull_textEquiv h1.lines h2.lines hlines (buf.drop (h2.old_start - 1))]

/-- C5 witness: a hunk whose context/remove texts are wrong applies exactly
like the correct one. -/
theorem claim5_witness :
    _apply_hunk ["x", "y"] ⟨1, 2, 1, 2, [⟨" ", "WRONG"⟩, ⟨"-", "ALSO"⟩, ⟨"+", "new"⟩]⟩
      = _apply_hunk ["x", "y"] ⟨1, 2, 1, 2, [⟨" ", "x"⟩, ⟨"-", "y"⟩, ⟨"+", "new"⟩]⟩ :=
  claim5_text_independence ["x", "y"]
    ⟨1, 2, 1, 2, [⟨" ", "WRONG"⟩, ⟨"-", "ALSO"⟩, ⟨"+", "new"⟩]⟩
    ⟨1, 2, 1, 2, [⟨" ", "x"⟩, ⟨"-", "y"⟩, ⟨"+", "new"⟩]⟩
    rfl ⟨rfl, rfl, rfl⟩ (by decide)

/-- C6 (refuting "applyAll never throws"): `write_text` in the modification
branch of `apply_patch` (patcher.py line 202) is outside every `try/except`,
so a write failure escapes `apply_diff_to_codebase` as an exception instead
of being returned as a failure entry, aborting the remaining patches. -/
theorem claim6_write_error_escapes :
    apply_diff_to_codebase "--- a/f.txt\n+++ b/f.txt\n@@ -1,3 +1,3 @@\n a\n-b\n+B\n c\n"
      ⟨[("f.txt", "a\nb\nc\n")], [], ["f.txt"]⟩ = .error "write error: f.txt" := by
  decide

/-- C7: a creation FilePatch (empty `old_path`, non-empty `new_path`) writes
the target file with exactly the concatenation of every add/context line's
text, each followed by one line terminator, reports success, and when at
least one such line exists the content ends in a terminator. -/
theorem claim7_creation (patch : FilePatch) (fs : FS)
    (hold : patch.old_path = "") (hnew : patch.new_path ≠ "")
    (hw : fs.writeFails.contains patch.new_path = false) :
    apply_patch patch fs =
      .ok ({ fs with files := updateAssoc fs.files patch.new_path (createContent patch.hunks) },
        true, "Created new file: " ++ patch.new_path) ∧
    createContent patch.hunks = concatNL (emittedTexts patch.hunks) ∧
    (emittedTexts patch.hunks ≠ [] →
      strEndsWith (createContent patch.hunks) "\n" = true) := by
  refine ⟨?_, createContent_eq_concatNL patch.hunks, ?_⟩
  · have hrel : patchRel patch = patch.new_path := by rw [patchRel, if_neg hnew]
    simp only [apply_patch, hrel, if_neg hnew, hold, if_true, fsWrite, hw,
      Bool.false_eq_true, if_false]
  · intro hne
    rw [createContent_eq_concatNL]
    exact concatNL_endsWith _ hne

/-- C7 witness: creating `new.txt` with two added lines. -/
theorem claim7_witness :
    apply_patch ⟨"", "new.txt", [⟨1, 0, 1, 2, [⟨"+", "x"⟩, ⟨"+", "y"⟩]⟩]⟩ ⟨[], [], []⟩ =
      .ok (⟨[("new.txt", "x\ny\n")], [], []⟩, true, "Created new file: new.txt") ∧
    createContent [⟨1, 0, 1, 2, [⟨"+", "x"⟩, ⟨"+", "y"⟩]⟩] =
      concatNL (emittedTexts [⟨1, 0, 1, 2, [⟨"+", "x"⟩, ⟨"+", "y"⟩]⟩]) ∧
    (emittedTexts [(⟨1, 0, 1, 2, [⟨"+", "x"⟩, ⟨"+", "y"⟩]⟩ : Hunk)] ≠ [] →
      strEndsWith (createContent [⟨1, 0, 1, 2, [⟨"+", "x"⟩, ⟨"+", "y"⟩]⟩]) "\n" = true) :=
  claim7_creation ⟨"", "new.txt", [⟨1, 0, 1, 2, [⟨"+", "x"⟩, ⟨"+", "y"⟩]⟩]⟩ ⟨[], [], []⟩
    rfl (by decide) (by decide)

/-- C8: whenever parsing yields no FilePatch at all — in particular when
every `---` line lacks an immediately following `+++` line — `applyAll`
returns exactly one failure entry with the "no valid patches" message and
leaves the filesystem untouched. -/
theorem claim8_no_patches (diff_text : String) (fs : FS)
    (hempty : parse_diff diff_text = []) :
    apply_diff_to_codebase diff_text fs =
      .ok (fs, [(false, "No valid patches found in diff.")]) := by
  simp [apply_diff_to_codebase, hempty]

/-- C8 witness: a candidate block whose `---` is not followed by `+++`
parses to zero patches and produces the single failure entry. -/
theorem claim8_witness :
    apply_diff_to_codebase "--- a/x.txt\nhello\n--- b/y\n" ⟨[("f.txt", "a\n")], [], []⟩ =
      .ok (⟨[("f.txt", "a\n")], [], []⟩, [(false, "No valid patches found in diff.")]) :=
  claim8_no_patches "--- a/x.txt\nhello\n--- b/y\n" ⟨[("f.txt", "a\n")], [], []⟩ (by decide)

/-- C9: when the hunk-body loop consumes operation lines consistent with the
declared counts (both remaining counters reach exactly zero — valid,
untruncated input), the recorded lines satisfy the invariant: context+remove
lines number `old_count` and context+add lines number `new_count`.
(`parseLoop_inHunk_eq` shows this loop is exactly what `parse_diff` runs.) -/
theorem claim9_parse_counts (lines : List String) (oc nc : Nat)
    (hl : List HunkLine) (rest : List String)
    (hp : parseHunkBodyAux lines (oc : Int) (nc : Int) [] = (hl, 0, 0, rest)) :
    oldExtent hl = oc ∧ newExtent hl = nc := by
  have hinv := parseHunkBodyAux_counts lines (oc : Int) (nc : Int) [] hl 0 0 rest hp
  simp only [oldExtent, newExtent] at hinv
  omega

/-- C9 witness: the standard 3/3 hunk body. -/
theorem claim9_witness :
    oldExtent [⟨" ", "a"⟩, ⟨"-", "b"⟩, ⟨"+", "B"⟩, ⟨" ", "c"⟩] = 3 ∧
    newExtent [⟨" ", "a"⟩, ⟨"-", "b"⟩, ⟨"+", "B"⟩, ⟨" ", "c"⟩] = 3 :=
  claim9_parse_counts [" a", "-b", "+B", " c", "@@ tail"] 3 3
    [⟨" ", "a"⟩, ⟨"-", "b"⟩, ⟨"+", "B"⟩, ⟨" ", "c"⟩] ["@@ tail"] (by decide)

/-- C10: `_apply_hunk` mismatches exactly when some context/remove entry is
processed with the cursor at or past the end of the buffer; an add-only hunk
always succeeds, and when its `old_start` lies beyond the end its lines are
appended after the existing content. -/
theorem claim10_mismatch_iff_cursor_overrun (buf : List String) (h : Hunk)
    (hstart : 1 ≤ h.old_start) :
    (_apply_hunk buf h = none ↔
      cursorFail buf.length (h.old_start - 1) h.lines = true) ∧
    ((∀ l ∈ h.lines, l.op = "+") →
      _apply_hunk buf h = some (buf.take (h.old_start - 1) ++ h.lines.map HunkLine.text ++
        buf.drop (h.old_start - 1))) ∧
    ((∀ l ∈ h.lines, l.op = "+") → buf.length ≤ h.old_start - 1 →
      _apply_hunk buf h = some (buf ++ h.lines.map HunkLine.text)) := by
  have haddcase : (∀ l ∈ h.lines, l.op = "+") →
      _apply_hunk buf h = some (buf.take (h.old_start - 1) ++ h.lines.map HunkLine.text ++
        buf.drop (h.old_start - 1)) := by
    intro hadd
    rw [_apply_hunk, applyHunkLoop_addOnly buf h.lines hadd]
  refine ⟨apply_hunk_none_iff buf h, haddcase, ?_⟩
  intro hadd hbeyond
  rw [haddcase hadd, List.take_of_length_le hbeyond, List.drop_eq_nil_of_le hbeyond,
    List.append_nil]

/-- C10 witness: an add-only hunk starting past the end of a one-line buffer
appends its lines; its mismatch condition is false. -/
theorem claim10_witness :
    (_apply_hunk ["a"] ⟨5, 0, 5, 2, [⟨"+", "x"⟩, ⟨"+", "y"⟩]⟩ = none ↔
      cursorFail 1 4 [⟨"+", "x"⟩, ⟨"+", "y"⟩] = true) ∧
    ((∀ l ∈ [(⟨"+", "x"⟩ : HunkLine), ⟨"+", "y"⟩], l.op = "+") →
      _apply_hunk ["a"] ⟨5, 0, 5, 2, [⟨"+", "x"⟩, ⟨"+", "y"⟩]⟩ =
        some (["a"].take 4 ++ [(⟨"+", "x"⟩ : HunkLine), ⟨"+", "y"⟩].map HunkLine.text ++
          ["a"].drop 4)) ∧
    ((∀ l ∈ [(⟨"+", "x"⟩ : HunkLine), ⟨"+", "y"⟩], l.op = "+") → ["a"].length ≤ 4 →
      _apply_hunk ["a"] ⟨5, 0, 5, 2, [⟨"+", "x"⟩, ⟨"+", "y"⟩]⟩ =
        some (["a"] ++ [(⟨"+", "x"⟩ : HunkLine), ⟨"+", "y"⟩].map HunkLine.text)) :=
  claim10_mismatch_iff_cursor_overrun ["a"] ⟨5, 0, 5, 2, [⟨"+", "x"⟩, ⟨"+", "y"⟩]⟩ (by decide)
